import Mathlib

/-!
Verification of the self-update pipeline in codex-rs/cli/src/self_update.rs.

Rust strings are embedded as List Char (Rust str comparison is bytewise on
UTF-8, which on code points coincides with Char order for ASCII data, and
all string constants involved are ASCII). Fallible Rust functions returning
anyhow::Result are embedded as Except UpdateError. Network fetches and
compressed-archive decoding (reqwest, zstd, flate2, tar, zip crates) are
external effects: they enter the model as explicit function arguments giving
the decoded view of the same bytes, so every definition below is the
logic of the repository over those inputs.
-/

set_option maxHeartbeats 1000000

/-- Coerce a Lean string literal to the List Char embedding of Rust strings. -/
def cs (x : String) : List Char := x.toList

/-- Rust str::split on a single separator character: n occurrences of the
separator yield n+1 (possibly empty) parts. -/
def splitOnChar (c : Char) : List Char → List (List Char)
  | [] => [[]]
  | x :: xs =>
    let r := splitOnChar c xs
    if x = c then [] :: r
    else
      match r with
      | [] => [[x]]
      | p :: ps => (x :: p) :: ps

/-- Bytewise lexicographic comparison of ASCII strings, as Rust Ord for str. -/
def cmpLex : List Char → List Char → Ordering
  | [], [] => Ordering.eq
  | [], _ :: _ => Ordering.lt
  | _ :: _, [] => Ordering.gt
  | a :: as, b :: bs => (compare a b).then (cmpLex as bs)

/-! ## Model of the semver crate (Version::parse and Ord for Version)

The comparator in list_releases calls semver::Version::parse and
semver::Version::cmp. The crate implements strict Semantic Versioning 2.0.0
parsing (major.minor.patch, optional dash-separated prerelease and
plus-separated build metadata, numeric segments without leading zeros and
bounded by u64), and a total order: numeric components first, then
prerelease precedence (absence of prerelease is greater), then the build-metadata
order of the crate (absence of build is smaller). -/

/-- Value of a digit string. -/
def natOfDigits (ds : List Char) : Nat :=
  ds.foldl (fun a c => a * 10 + (c.toNat - 48)) 0

/-- Parse a leading numeric component for major/minor/patch: nonempty digit
run, no leading zero, value must fit in u64. Returns the value and rest. -/
def parseNum (l : List Char) : Option (Nat × List Char) :=
  let p := l.span Char.isDigit
  if p.1 = [] then none
  else if p.1.head? = some '0' ∧ p.1.length ≠ 1 then none
  else if natOfDigits p.1 ≥ 2 ^ 64 then none
  else some (natOfDigits p.1, p.2)

/-- Characters allowed in prerelease/build identifiers: ASCII alphanumerics
and the dash. -/
def isIdentChar (c : Char) : Bool :=
  c.isDigit || c.isAlpha || c = '-'

/-- A valid prerelease identifier: nonempty, ident chars only, and an
all-numeric identifier must not have a leading zero. -/
def validPreIdent (seg : List Char) : Bool :=
  !seg.isEmpty && seg.all isIdentChar &&
    (!(seg.all Char.isDigit) || seg.length == 1 || !(seg.head? == some '0'))

/-- A valid build identifier: nonempty, ident chars only (leading zeros are
allowed in build metadata). -/
def validBuildIdent (seg : List Char) : Bool :=
  !seg.isEmpty && seg.all isIdentChar

/-- A parsed semantic version. Prerelease and build are kept as their
dot-separated identifier lists. -/
structure Semver where
  major : Nat
  minor : Nat
  patch : Nat
  pre : List (List Char)
  build : List (List Char)
deriving DecidableEq, Repr

/-- Parse the optional -prerelease and +build tail of a version string. -/
def parseTail (r : List Char) : Option (List (List Char) × List (List Char)) :=
  match r with
  | [] => some ([], [])
  | '-' :: rest =>
    let q := rest.span (fun c => c ≠ '+')
    let pre := splitOnChar '.' q.1
    if pre.all validPreIdent then
      match q.2 with
      | [] => some (pre, [])
      | _ :: bs =>
        let build := splitOnChar '.' bs
        if build.all validBuildIdent then some (pre, build) else none
    else none
  | '+' :: bs =>
    let build := splitOnChar '.' bs
    if build.all validBuildIdent then some ([], build) else none
  | _ => none

/-- Model of semver::Version::parse over the List Char embedding. -/
def parseSemver (l : List Char) : Option Semver :=
  match parseNum l with
  | none => none
  | some (major, r1) =>
    match r1 with
    | '.' :: r2 =>
      match parseNum r2 with
      | none => none
      | some (minor, r3) =>
        match r3 with
        | '.' :: r4 =>
          match parseNum r4 with
          | none => none
          | some (patch, r5) =>
            match parseTail r5 with
            | none => none
            | some (pre, build) => some ⟨major, minor, patch, pre, build⟩
        | _ => none
    | _ => none

/-- Precedence of two prerelease identifiers: numeric identifiers compare
numerically (by length then bytes, no leading zeros), numeric is below
alphanumeric, alphanumeric compares bytewise. -/
def cmpPreIdent (a b : List Char) : Ordering :=
  match a.all Char.isDigit, b.all Char.isDigit with
  | true, true => (compare a.length b.length).then (cmpLex a b)
  | true, false => Ordering.lt
  | false, true => Ordering.gt
  | false, false => cmpLex a b

/-- Precedence of two build identifiers, as the semver crate orders them:
numeric identifiers (leading zeros allowed) compare by zero-stripped value,
ties broken by raw length. -/
def cmpBuildIdent (a b : List Char) : Ordering :=
  match a.all Char.isDigit, b.all Char.isDigit with
  | true, true =>
    let a' := a.dropWhile (fun c => c = '0')
    let b' := b.dropWhile (fun c => c = '0')
    ((compare a'.length b'.length).then (cmpLex a' b')).then
      (compare a.length b.length)
  | true, false => Ordering.lt
  | false, true => Ordering.gt
  | false, false => cmpLex a b

/-- Compare identifier lists pointwise; a strict extension is greater. -/
def cmpIdentList (f : List Char → List Char → Ordering) :
    List (List Char) → List (List Char) → Ordering
  | [], [] => Ordering.eq
  | [], _ :: _ => Ordering.lt
  | _ :: _, [] => Ordering.gt
  | a :: as, b :: bs => (f a b).then (cmpIdentList f as bs)

/-- Prerelease precedence: a version without prerelease is greater than one
with a prerelease. -/
def cmpPre (a b : List (List Char)) : Ordering :=
  match a, b with
  | [], [] => Ordering.eq
  | [], _ :: _ => Ordering.gt
  | _ :: _, [] => Ordering.lt
  | _, _ => cmpIdentList cmpPreIdent a b

/-- Build-metadata order in the semver crate: absence compares below
presence. -/
def cmpBuild (a b : List (List Char)) : Ordering :=
  match a, b with
  | [], [] => Ordering.eq
  | [], _ :: _ => Ordering.lt
  | _ :: _, [] => Ordering.gt
  | _, _ => cmpIdentList cmpBuildIdent a b

/-- Model of Ord for semver::Version. -/
def cmpSemver (a b : Semver) : Ordering :=
  (compare a.major b.major).then
    ((compare a.minor b.minor).then
      ((compare a.patch b.patch).then
        ((cmpPre a.pre b.pre).then (cmpBuild a.build b.build))))

/-! ## Data model: GitHub releases and assets (self_update.rs lines 21-52) -/

/-- One downloadable file attached to a release. -/
structure GitHubAsset where
  name : List Char
  browser_download_url : List Char
  size : Nat
deriving DecidableEq, Repr

/-- Raw release entry as decoded from the hosting API. -/
structure GitHubRelease where
  tag_name : List Char
  name : List Char
  body : List Char
  draft : Bool
  prerelease : Bool
  published_at : Int
  assets : List GitHubAsset
deriving DecidableEq, Repr

/-- Normalized release record produced by list_releases. -/
structure Release where
  version : List Char
  repo : List Char
  is_prerelease : Bool
  published_at : Int
  assets : List GitHubAsset
  body : List Char
deriving DecidableEq, Repr

/-- The comparator passed to sort_by in list_releases (lines 109-120):
semver-descending when both versions parse, a parsing version before a
non-parsing one, reverse lexical when neither parses. -/
def compareReleases (a b : Release) : Ordering :=
  match parseSemver a.version, parseSemver b.version with
  | some va, some vb => cmpSemver vb va
  | some _, none => Ordering.lt
  | none, some _ => Ordering.gt
  | none, none => (cmpLex a.version b.version).swap

/-- Stable insertion into a sorted list: the new element goes before the
first strictly greater element, hence after all elements it ties with. -/
def insertSorted (cmp : α → α → Ordering) (x : α) : List α → List α
  | [] => [x]
  | y :: ys =>
    if cmp x y = Ordering.lt then x :: y :: ys else y :: insertSorted cmp x ys

/-- Stable comparator sort, the behavior of Rust slice::sort_by. -/
def sortByCmp (cmp : α → α → Ordering) (l : List α) : List α :=
  l.foldl (fun acc x => insertSorted cmp x acc) []

/-- Build a release with a given version and irrelevant remaining fields,
for concrete ordering tests. -/
def mkRel (v : String) : Release :=
  ⟨cs v, cs "openai/codex", false, 0, [], []⟩

/-! ## Error kinds (the anyhow errors raised in self_update.rs) -/

/-- The distinct failure kinds of the pipeline. Opaque transport and
input/output error payloads are carried as strings. -/
inductive UpdateError where
  | fetchError (e : List Char)
  | invalidSourceFormat
  | noReleasesFound
  | unsupportedAssetFormat
  | binaryNotFoundInArchive
  | ioError (e : List Char)
deriving DecidableEq, Repr

/-! ## Repository constants and small parsers (lines 13-19, 144-162) -/

def DEFAULT_REPO_OWNER : List Char := cs "iainlowe"

def DEFAULT_REPO_NAME : List Char := cs "codex"

def PRIMARY_REPO_OWNER : List Char := cs "openai"

def PRIMARY_REPO_NAME : List Char := cs "codex"

/-- parse_repo_string (lines 144-150): split on the slash and require
exactly two parts; the parts themselves are not validated further. -/
def parse_repo_string (repo : List Char) :
    Except UpdateError (List Char × List Char) :=
  match splitOnChar '/' repo with
  | [a, b] => Except.ok (a, b)
  | _ => Except.error UpdateError.invalidSourceFormat

/-- parse_version_from_tag (lines 152-162): strip a rust-v tag marker,
else a v marker, else leave the tag unchanged. -/
def parse_version_from_tag (tag_name : List Char) : List Char :=
  if (cs "rust-v").isPrefixOf tag_name then tag_name.drop (cs "rust-v").length
  else if (cs "v").isPrefixOf tag_name then tag_name.drop (cs "v").length
  else tag_name

/-! ## Release aggregation: list_releases (lines 54-123) -/

/-- Normalization of a raw API entry into a Release, tagged with the
owner/name pair it came from (the loop bodies at lines 64-73 and 92-101). -/
def toRelease (owner nm : List Char) (g : GitHubRelease) : Release :=
  ⟨parse_version_from_tag g.tag_name, owner ++ '/' :: nm, g.prerelease,
    g.published_at, g.assets, g.body⟩

/-- A fetch oracle: the result of fetch_releases_from_repo for each
owner/name pair, with an opaque transport error on failure. -/
def FetchFn : Type :=
  List Char → List Char → Except (List Char) (List GitHubRelease)

/-- The contribution of the primary source (lines 60-78): its releases when the
fetch succeeds, nothing (a printed warning aside) when it fails. -/
def primary_releases (fetch : FetchFn) : List Release :=
  match fetch PRIMARY_REPO_OWNER PRIMARY_REPO_NAME with
  | Except.ok rs => rs.map (toRelease PRIMARY_REPO_OWNER PRIMARY_REPO_NAME)
  | Except.error _ => []

/-- Resolution of the secondary source (lines 81-85): the override parsed
as owner/name, or the baked-in default pair. -/
def resolve_repo (repo_override : Option (List Char)) :
    Except UpdateError (List Char × List Char) :=
  match repo_override with
  | some r => parse_repo_string r
  | none => Except.ok (DEFAULT_REPO_OWNER, DEFAULT_REPO_NAME)

/-- list_releases (lines 54-123) over a fetch oracle: best-effort primary
fetch, fatal secondary fetch unless the secondary equals the primary,
empty-merge check, then the comparator sort. -/
def list_releases (fetch : FetchFn) (repo_override : Option (List Char)) :
    Except UpdateError (List Release) :=
  match resolve_repo repo_override with
  | Except.error e => Except.error e
  | Except.ok (repo_owner, repo_name) =>
    let afterSecondary : Except UpdateError (List Release) :=
      if repo_owner = PRIMARY_REPO_OWNER ∧ repo_name = PRIMARY_REPO_NAME then
        Except.ok (primary_releases fetch)
      else
        match fetch repo_owner repo_name with
        | Except.error e => Except.error (UpdateError.fetchError e)
        | Except.ok rs =>
          Except.ok (primary_releases fetch ++ rs.map (toRelease repo_owner repo_name))
    match afterSecondary with
    | Except.error e => Except.error e
    | Except.ok all_releases =>
      if all_releases.isEmpty then Except.error UpdateError.noReleasesFound
      else Except.ok (sortByCmp compareReleases all_releases)

/-- Pointwise update of a fetch oracle at one owner/name pair, used to state
that a failing primary contributes exactly an empty list. -/
def overrideFetch (fetch : FetchFn) (o n : List Char)
    (v : Except (List Char) (List GitHubRelease)) : FetchFn :=
  fun o' n' => if o' = o ∧ n' = n then v else fetch o' n'

/-! ## Asset selection: find_suitable_asset (lines 209-230) -/

/-- Rust str::contains with a substring pattern, over the embedding. -/
def containsSub (needle hay : List Char) : Bool :=
  decide (needle <:+: hay)

/-- The suffix priority list (lines 213-218): Windows-like targets are
those whose target triple contains the substring windows. -/
def preferred_extensions (target_triple : List Char) : List (List Char) :=
  if containsSub (cs "windows") target_triple then
    [cs ".exe.zst", cs ".exe.zip", cs ".exe.tar.gz"]
  else
    [cs ".zst", cs ".tar.gz"]

/-- The match test at line 223: name contains the target triple and ends
with the candidate suffix. -/
def assetMatches (target_triple ext : List Char) (a : GitHubAsset) : Bool :=
  containsSub target_triple a.name && ext.isSuffixOf a.name

/-- The suffix loop of find_suitable_asset (lines 220-227): for each suffix
in priority order, the first asset in list order that matches it. -/
def findByExts (assets : List GitHubAsset) (target_triple : List Char) :
    List (List Char) → Option GitHubAsset
  | [] => none
  | ext :: rest =>
    match assets.find? (assetMatches target_triple ext) with
    | some a => some a
    | none => findByExts assets target_triple rest

/-- find_suitable_asset (lines 209-230). -/
def find_suitable_asset (assets : List GitHubAsset) (target_triple : List Char) :
    Option GitHubAsset :=
  findByExts assets target_triple (preferred_extensions target_triple)

/-! ## Archive extraction (lines 251-263, 296-343)

The tar and zip containers enter the model already decoded into their entry
lists (the flate2/tar/zip crates are external); the logic of the repository
is the dispatch on the asset-name suffix and the in-order scan of entries
for the file name of the executable. -/

/-- One entry of a tar archive: its path inside the archive and contents. -/
structure TarEntry where
  path : List Char
  contents : List Nat
deriving DecidableEq, Repr

/-- One entry of a zip archive: its name inside the archive and contents. -/
structure ZipEntry where
  name : List Char
  contents : List Nat
deriving DecidableEq, Repr

/-- Rust Path::file_name over the slash-separated embedding: the last
component after discarding empty and dot components, and no file name when
that component is the parent-directory marker. -/
def file_name (p : List Char) : Option (List Char) :=
  match ((splitOnChar '/' p).filter
      (fun seg => !seg.isEmpty && !(seg == cs "."))).getLast? with
  | some seg => if seg == cs ".." then none else some seg
  | none => none

/-- The tar-entry test at lines 308-311: base file name exactly codex, or
starting with codex followed by a dash. -/
def tarEntryMatches (e : TarEntry) : Bool :=
  match file_name e.path with
  | some fn => fn == cs "codex" || (cs "codex-").isPrefixOf fn
  | none => false

/-- The scan of extract_tar_gz (lines 303-319): contents of the first matching
entry, else the not-found error. -/
def extract_tar_gz (entries : List TarEntry) : Except UpdateError (List Nat) :=
  match entries.find? tarEntryMatches with
  | some e => Except.ok e.contents
  | none => Except.error UpdateError.binaryNotFoundInArchive

/-- The zip-entry name split at line 332: the last slash-separated piece of
the entry name. -/
def zipFileName (n : List Char) : Option (List Char) :=
  (splitOnChar '/' n).getLast?

/-- The zip-entry test at lines 332-333: base name exactly codex.exe, or
starting with codex followed by a dash. -/
def zipEntryMatches (e : ZipEntry) : Bool :=
  match zipFileName e.name with
  | some fn => fn == cs "codex.exe" || (cs "codex-").isPrefixOf fn
  | none => false

/-- The scan of extract_zip (lines 329-342): contents of the first matching
entry in index order, else the not-found error. -/
def extract_zip (entries : List ZipEntry) : Except UpdateError (List Nat) :=
  match entries.find? zipEntryMatches with
  | some e => Except.ok e.contents
  | none => Except.error UpdateError.binaryNotFoundInArchive

/-- Decoder oracles for the three container formats: how the downloaded
bytes decode under zstd, gzip+tar, and zip (each may fail). -/
structure Decoders where
  zstdDecode : List Nat → Except (List Char) (List Nat)
  gunzipTar : List Nat → Except (List Char) (List TarEntry)
  unzip : List Nat → Except (List Char) (List ZipEntry)

/-- The extraction dispatch of download_and_replace_binary (lines 251-263):
purely on the asset-name suffix, in the order zst, tar.gz, zip, with any
other suffix unsupported. -/
def extract_binary (dec : Decoders) (assetName : List Char) (bytes : List Nat) :
    Except UpdateError (List Nat) :=
  if (cs ".zst").isSuffixOf assetName then
    match dec.zstdDecode bytes with
    | Except.ok d => Except.ok d
    | Except.error e => Except.error (UpdateError.ioError e)
  else if (cs ".tar.gz").isSuffixOf assetName then
    match dec.gunzipTar bytes with
    | Except.ok es => extract_tar_gz es
    | Except.error e => Except.error (UpdateError.ioError e)
  else if (cs ".zip").isSuffixOf assetName then
    match dec.unzip bytes with
    | Except.ok es => extract_zip es
    | Except.error e => Except.error (UpdateError.ioError e)
  else Except.error UpdateError.unsupportedAssetFormat

/-! ## Binary replacement: download_and_replace_binary (lines 232-294)

The POSIX build of the function is modeled (the cfg unix and cfg
not-windows blocks both active). Paths are a file-name base together with
an optional extension, which is exactly the granularity Rust
Path::with_extension acts at; the filesystem is a partial map from paths to
file contents plus a permission mode. Fallible filesystem calls are gated
by boolean oracles (their failure is environmental), and the download and
the archive decoders are oracles as in the extraction model. -/

/-- A filesystem path: everything up to the extension dot, and the
extension. -/
structure FsPath where
  base : List Char
  ext : Option (List Char)
deriving DecidableEq, Repr

/-- Rust Path::with_extension: replace (or add) the extension. -/
def with_extension (p : FsPath) (e : List Char) : FsPath :=
  ⟨p.base, some e⟩

/-- A stored file: contents and permission mode bits. -/
structure FileData where
  data : List Nat
  mode : Nat
deriving DecidableEq, Repr

/-- The filesystem: a partial map from paths to files. -/
def Fs : Type := FsPath → Option FileData

/-- std::fs::write: create or truncate; an existing file keeps its mode, a
new file gets the process-default mode. -/
def fsWrite (fs : Fs) (p : FsPath) (d : List Nat) (defaultMode : Nat) : Fs :=
  fun q =>
    if q = p then
      some ⟨d, match fs p with
               | some f => f.mode
               | none => defaultMode⟩
    else fs q

/-- std::fs::set_permissions: replace the mode bits of an existing file. -/
def fsSetMode (fs : Fs) (p : FsPath) (m : Nat) : Fs :=
  fun q =>
    if q = p then (fs p).map (fun f => ⟨f.data, m⟩)
    else fs q

/-- std::fs::rename: move the source file onto the destination path. -/
def fsRename (fs : Fs) (src dst : FsPath) : Fs :=
  fun q =>
    if q = src then none
    else if q = dst then fs src
    else fs q

/-- Outcome oracles for the effectful steps of the replacement sequence:
the downloaded bytes (or transport error) and whether the write, the
permission change and the rename succeed. -/
structure ReplaceEnv where
  download : Except (List Char) (List Nat)
  writeOk : Bool
  permOk : Bool
  renameOk : Bool
  defaultMode : Nat

/-- download_and_replace_binary (lines 232-294), POSIX build: download,
extract to the temporary sibling path, mark it executable, rename it onto
the running executable. Returns the result together with the final
filesystem. -/
def download_and_replace_binary (asset : GitHubAsset) (dec : Decoders)
    (env : ReplaceEnv) (current_exe : FsPath) (fs : Fs) :
    Except UpdateError Unit × Fs :=
  match env.download with
  | Except.error e => (Except.error (UpdateError.fetchError e), fs)
  | Except.ok bytes =>
    let temp_path := with_extension current_exe (cs "tmp")
    match extract_binary dec asset.name bytes with
    | Except.error e => (Except.error e, fs)
    | Except.ok bin =>
      if env.writeOk = false then
        (Except.error (UpdateError.ioError (cs "write failed")), fs)
      else
        let fs1 := fsWrite fs temp_path bin env.defaultMode
        if env.permOk = false then
          (Except.error (UpdateError.ioError (cs "set_permissions failed")), fs1)
        else
          let fs2 := fsSetMode fs1 temp_path 0o755
          if env.renameOk = false then
            (Except.error (UpdateError.ioError (cs "rename failed")), fs2)
          else
            (Except.ok (), fsRename fs2 temp_path current_exe)

/-! ## Concrete instances used in examples and witnesses -/

/-- A tarball asset for the linux-musl target. -/
def tarAssetEx : GitHubAsset :=
  ⟨cs "codex-x86_64-unknown-linux-musl.tar.gz", cs "u1", 10⟩

def zstAssetEx : GitHubAsset :=
  ⟨cs "codex-x86_64-unknown-linux-musl.zst", cs "u2", 20⟩

/-- An asset in the exe.zst style that still matches a non-Windows suffix. -/
def exeZstAssetEx : GitHubAsset :=
  ⟨cs "codex-mytarget.exe.zst", cs "u3", 30⟩

/-- Decoder oracles with trivial concrete behavior. -/
def decodersEx : Decoders :=
  ⟨fun b => Except.ok b, fun _ => Except.ok [], fun _ => Except.ok []⟩

/-- A raw release entry used in concrete list_releases runs. -/
def gRelEx : GitHubRelease :=
  ⟨cs "rust-v0.99.0", [], [], false, false, 0, []⟩

/-- A fetch oracle that always fails. -/
def fetchFailEx : FetchFn := fun _ _ => Except.error (cs "rate limited")

/-- A fetch oracle that fails on the primary source and succeeds elsewhere. -/
def fetchMixEx : FetchFn :=
  fun o _ =>
    if o = cs "openai" then Except.error (cs "rate limited")
    else Except.ok [gRelEx]

/-- A concrete executable path with no extension. -/
def exePathEx : FsPath := ⟨cs "/usr/local/bin/codex", none⟩

/-- An initially empty filesystem. -/
def fsEmptyEx : Fs := fun _ => none

/-- A replacement environment whose download fails. -/
def envDlFailEx : ReplaceEnv :=
  ⟨Except.error (cs "net down"), true, true, true, 0o644⟩

/-- A replacement environment where every step succeeds. -/
def envOkEx : ReplaceEnv :=
  ⟨Except.ok [7, 7, 7], true, true, true, 0o644⟩

/-- Equality of Except values is decidable componentwise, which lets the
concrete runs below be settled by evaluation. -/
instance instDecEqExcept {ε α : Type} [DecidableEq ε] [DecidableEq α] :
    DecidableEq (Except ε α) := fun a b =>
  match a, b with
  | Except.ok x, Except.ok y =>
    if h : x = y then isTrue (by rw [h]) else isFalse (by simp [h])
  | Except.error x, Except.error y =>
    if h : x = y then isTrue (by rw [h]) else isFalse (by simp [h])
  | Except.ok _, Except.error _ => isFalse (by simp)
  | Except.error _, Except.ok _ => isFalse (by simp)

/-! ## Helper lemmas -/

theorem isPrefixOf_append_self (p t : List Char) :
    p.isPrefixOf (p ++ t) = true := by
  rw [List.isPrefixOf_iff_prefix]
  exact List.prefix_append p t

theorem insertSorted_length (cmp : α → α → Ordering) (x : α) (l : List α) :
    (insertSorted cmp x l).length = l.length + 1 := by
  induction l with
  | nil => rfl
  | cons y ys ih =>
    simp only [insertSorted]
    split
    · simp
    · simp [ih]


theorem foldl_insertSorted_length (cmp : α → α → Ordering) (l acc : List α) :
    (l.foldl (fun acc x => insertSorted cmp x acc) acc).length
      = acc.length + l.length := by
  induction l generalizing acc with
  | nil => simp
  | cons x xs ih =>
    simp only [List.foldl, List.length_cons]
    rw [ih, insertSorted_length]
    omega

theorem sortByCmp_length (cmp : α → α → Ordering) (l : List α) :
    (sortByCmp cmp l).length = l.length := by
  simpa using foldl_insertSorted_length cmp l []

theorem splitOnChar_ne_nil (c : Char) (l : List Char) : splitOnChar c l ≠ [] := by
  cases l with
  | nil => simp [splitOnChar]
  | cons x xs =>
    simp only [splitOnChar]
    split
    · simp
    · cases h : splitOnChar c xs <;> simp

theorem splitOnChar_cons_eq (c : Char) (xs : List Char) :
    splitOnChar c (c :: xs) = [] :: splitOnChar c xs := by
  simp [splitOnChar]

theorem splitOnChar_cons_ne (c x : Char) (xs : List Char) (hx : ¬x = c)
    (p : List Char) (ps : List (List Char)) (hr : splitOnChar c xs = p :: ps) :
    splitOnChar c (x :: xs) = (x :: p) :: ps := by
  simp [splitOnChar, hx, hr]

theorem splitOnChar_eq_singleton (c : Char) (l b : List Char) :
    splitOnChar c l = [b] ↔ l = b ∧ c ∉ b := by
  induction l generalizing b with
  | nil =>
    constructor
    · intro h
      simp only [splitOnChar, List.cons.injEq, and_true] at h
      subst h
      exact ⟨rfl, by simp⟩
    · rintro ⟨rfl, -⟩
      rfl
  | cons x xs ih =>
    by_cases hx : x = c
    · subst hx
      rw [splitOnChar_cons_eq]
      constructor
      · intro h
        simp only [List.cons.injEq] at h
        exact absurd h.2 (splitOnChar_ne_nil x xs)
      · rintro ⟨rfl, hnin⟩
        exact absurd (List.mem_cons_self x xs) hnin
    · obtain ⟨p, ps, hr⟩ : ∃ p ps, splitOnChar c xs = p :: ps := by
        cases hsp : splitOnChar c xs with
        | nil => exact absurd hsp (splitOnChar_ne_nil c xs)
        | cons p ps => exact ⟨p, ps, rfl⟩
      rw [splitOnChar_cons_ne c x xs hx p ps hr]
      constructor
      · intro h
        simp only [List.cons.injEq] at h
        obtain ⟨hb, hps⟩ := h
        rw [hps] at hr
        obtain ⟨hxs, hnp⟩ := (ih p).mp hr
        subst hb
        constructor
        · rw [hxs]
        · intro hmem
          rcases List.mem_cons.mp hmem with h1 | h1
          · exact hx h1.symm
          · exact hnp h1
      · rintro ⟨rfl, hnin⟩
        have hc : c ∉ xs := fun hm => hnin (List.mem_cons_of_mem x hm)
        have h5 : splitOnChar c xs = [xs] := (ih xs).mpr ⟨rfl, hc⟩
        rw [hr] at h5
        simp only [List.cons.injEq] at h5
        rw [h5.1, h5.2]

theorem splitOnChar_eq_pair (c : Char) (l a b : List Char) :
    splitOnChar c l = [a, b] ↔ l = a ++ c :: b ∧ c ∉ a ∧ c ∉ b := by
  induction l generalizing a with
  | nil =>
    constructor
    · intro h
      simp [splitOnChar] at h
    · rintro ⟨h, -, -⟩
      exact absurd h (by cases a <;> simp)
  | cons x xs ih =>
    by_cases hx : x = c
    · subst hx
      rw [splitOnChar_cons_eq]
      constructor
      · intro h
        simp only [List.cons.injEq] at h
        obtain ⟨ha, hs⟩ := h
        obtain ⟨hxs, hnb⟩ := (splitOnChar_eq_singleton x xs b).mp hs
        refine ⟨?_, ?_, hnb⟩
        · rw [← ha, hxs]
          rfl
        · rw [← ha]
          simp
      · rintro ⟨heq, hna, hnb⟩
        cases a with
        | nil =>
          simp only [List.nil_append, List.cons.injEq] at heq
          rw [(splitOnChar_eq_singleton x xs b).mpr ⟨heq.2, hnb⟩]
        | cons a0 as =>
          simp only [List.cons_append, List.cons.injEq] at heq
          exact absurd (by rw [heq.1]; exact List.mem_cons_self a0 as) hna
    · obtain ⟨p, ps, hr⟩ : ∃ p ps, splitOnChar c xs = p :: ps := by
        cases hsp : splitOnChar c xs with
        | nil => exact absurd hsp (splitOnChar_ne_nil c xs)
        | cons p ps => exact ⟨p, ps, rfl⟩
      rw [splitOnChar_cons_ne c x xs hx p ps hr]
      constructor
      · intro h
        simp only [List.cons.injEq] at h
        obtain ⟨ha, hps⟩ := h
        rw [hps] at hr
        obtain ⟨hxs, hnp, hnb⟩ := (ih p).mp hr
        refine ⟨?_, ?_, hnb⟩
        · rw [← ha, hxs]
          rfl
        · rw [← ha]
          intro hmem
          rcases List.mem_cons.mp hmem with h1 | h1
          · exact hx h1.symm
          · exact hnp h1
      · rintro ⟨heq, hna, hnb⟩
        cases a with
        | nil =>
          simp only [List.nil_append, List.cons.injEq] at heq
          exact absurd heq.1 hx
        | cons a0 as =>
          simp only [List.cons_append, List.cons.injEq] at heq
          obtain ⟨hxa, heq2⟩ := heq
          have hnas : c ∉ as := fun hm => hna (List.mem_cons_of_mem a0 hm)
          have h5 : splitOnChar c xs = [as, b] := (ih as).mpr ⟨heq2, hnas, hnb⟩
          rw [hr] at h5
          simp only [List.cons.injEq] at h5
          rw [h5.1, h5.2, hxa]

/-! ## Claim theorems -/

/-- C1: the comparator used by list_releases orders two releases
semver-descending when both version strings parse as semantic versions,
places a release with a parsing version before one whose version does not
parse, and falls back to reverse lexical string comparison when neither
parses; sorting the versions 0.26.0, 0.28.0, not-a-version, 0.27.0 yields
0.28.0, 0.27.0, 0.26.0, not-a-version. -/
theorem c1_release_ordering :
    (∀ a b : Release, ∀ va vb : Semver,
        parseSemver a.version = some va → parseSemver b.version = some vb →
        compareReleases a b = cmpSemver vb va)
  ∧ (∀ a b : Release, ∀ va : Semver,
        parseSemver a.version = some va → parseSemver b.version = none →
        compareReleases a b = Ordering.lt)
  ∧ (∀ a b : Release, ∀ vb : Semver,
        parseSemver a.version = none → parseSemver b.version = some vb →
        compareReleases a b = Ordering.gt)
  ∧ (∀ a b : Release,
        parseSemver a.version = none → parseSemver b.version = none →
        compareReleases a b = (cmpLex a.version b.version).swap)
  ∧ ((sortByCmp compareReleases
        [mkRel "0.26.0", mkRel "0.28.0", mkRel "not-a-version", mkRel "0.27.0"]).map
          (fun r => r.version)
      = [cs "0.28.0", cs "0.27.0", cs "0.26.0", cs "not-a-version"]) := by
  refine ⟨?_, ?_, ?_, ?_, by decide⟩
  · intro a b va vb h1 h2
    simp [compareReleases, h1, h2]
  · intro a b va h1 h2
    simp [compareReleases, h1, h2]
  · intro a b vb h1 h2
    simp [compareReleases, h1, h2]
  · intro a b h1 h2
    simp [compareReleases, h1, h2]

/-- Witness for C1: the comparator applied to two parsing versions and to
two non-parsing versions. -/
theorem c1_release_ordering_witness :
    compareReleases (mkRel "0.27.0") (mkRel "0.28.0")
        = cmpSemver ⟨0, 28, 0, [], []⟩ ⟨0, 27, 0, [], []⟩
  ∧ compareReleases (mkRel "abc") (mkRel "not-a-version")
        = (cmpLex (cs "abc") (cs "not-a-version")).swap :=
  ⟨c1_release_ordering.1 (mkRel "0.27.0") (mkRel "0.28.0")
      ⟨0, 27, 0, [], []⟩ ⟨0, 28, 0, [], []⟩ (by decide) (by decide),
    c1_release_ordering.2.2.2.1 (mkRel "abc") (mkRel "not-a-version")
      (by decide) (by decide)⟩

/-- C2 counterexample: the override a-slash-nothing splits into a part that
is empty, yet parse_repo_string accepts it and returns the empty project
side, contradicting the claimed non-empty requirement. -/
theorem c2_counterexample :
    parse_repo_string (cs "a/") = Except.ok (cs "a", cs "")
  ∧ splitOnChar '/' (cs "a/") = [cs "a", cs ""]
  ∧ cs "" = [] := by decide

/-- C2 amended: parsing an override succeeds exactly when the string is a
part, one slash, and a part, with no further slash in either part (the
parts may be empty), returning the two sides in order; otherwise it fails
with the invalid-source-format error. -/
theorem c2_parse_repo_string (repo : List Char) :
    (∀ a b : List Char,
        parse_repo_string repo = Except.ok (a, b) ↔
          repo = a ++ '/' :: b ∧ '/' ∉ a ∧ '/' ∉ b)
  ∧ (parse_repo_string repo = Except.error UpdateError.invalidSourceFormat ↔
      ¬∃ a b : List Char, repo = a ++ '/' :: b ∧ '/' ∉ a ∧ '/' ∉ b) := by
  have key : ∀ a b : List Char,
      parse_repo_string repo = Except.ok (a, b) ↔ splitOnChar '/' repo = [a, b] := by
    intro a b
    cases h : splitOnChar '/' repo with
    | nil => exact absurd h (splitOnChar_ne_nil _ _)
    | cons p ps =>
      cases ps with
      | nil => simp [parse_repo_string, h]
      | cons q rs =>
        cases rs with
        | nil =>
          simp only [parse_repo_string, h]
          constructor
          · intro hh
            simp only [Except.ok.injEq, Prod.mk.injEq] at hh
            rw [hh.1, hh.2]
          · intro hh
            simp only [List.cons.injEq, and_true] at hh
            rw [hh.1, hh.2]
        | cons r rss => simp [parse_repo_string, h]
  constructor
  · intro a b
    rw [key a b]
    exact splitOnChar_eq_pair '/' repo a b
  · constructor
    · rintro he ⟨a, b, hd⟩
      have hok : parse_repo_string repo = Except.ok (a, b) :=
        (key a b).mpr ((splitOnChar_eq_pair '/' repo a b).mpr hd)
      rw [hok] at he
      cases he
    · intro hne
      cases h : splitOnChar '/' repo with
      | nil => exact absurd h (splitOnChar_ne_nil _ _)
      | cons p ps =>
        cases ps with
        | nil => simp [parse_repo_string, h]
        | cons q rs =>
          cases rs with
          | nil =>
            exact absurd ⟨p, q, (splitOnChar_eq_pair '/' repo p q).mp h⟩ hne
          | cons r rss => simp [parse_repo_string, h]

/-- Witness for C2 amended: a concrete well-formed override decomposes as
owner, slash, project. -/
theorem c2_parse_repo_string_witness :
    cs "a/b" = cs "a" ++ '/' :: cs "b" ∧ '/' ∉ cs "a" ∧ '/' ∉ cs "b" :=
  ((c2_parse_repo_string (cs "a/b")).1 (cs "a") (cs "b")).mp (by decide)

/-- C6: tag normalization strips at most one marker, trying rust-v first,
else v, else leaving the tag unchanged; and for any tag T that starts with
neither marker, normalizing rust-v plus T, v plus T, and T itself each
yield exactly T. -/
theorem c6_parse_version_from_tag (tag T : List Char)
    (h1 : (cs "rust-v").isPrefixOf T = false)
    (h2 : (cs "v").isPrefixOf T = false) :
    ((cs "rust-v").isPrefixOf tag = true →
        parse_version_from_tag tag = tag.drop (cs "rust-v").length)
  ∧ ((cs "rust-v").isPrefixOf tag = false → (cs "v").isPrefixOf tag = true →
        parse_version_from_tag tag = tag.drop (cs "v").length)
  ∧ ((cs "rust-v").isPrefixOf tag = false → (cs "v").isPrefixOf tag = false →
        parse_version_from_tag tag = tag)
  ∧ parse_version_from_tag (cs "rust-v" ++ T) = T
  ∧ parse_version_from_tag (cs "v" ++ T) = T
  ∧ parse_version_from_tag T = T := by
  refine ⟨?_, ?_, ?_, ?_, ?_, ?_⟩
  · intro h
    simp [parse_version_from_tag, h]
  · intro ha hb
    simp [parse_version_from_tag, ha, hb]
  · intro ha hb
    simp [parse_version_from_tag, ha, hb]
  · have hp : (cs "rust-v").isPrefixOf (cs "rust-v" ++ T) = true :=
      isPrefixOf_append_self _ _
    simp only [parse_version_from_tag, hp, if_true]
    exact List.drop_left _ _
  · have hv : (cs "v").isPrefixOf (cs "v" ++ T) = true :=
      isPrefixOf_append_self _ _
    have hr : (cs "rust-v").isPrefixOf (cs "v" ++ T) = false := rfl
    simp only [parse_version_from_tag, hr, hv, if_true, Bool.false_eq_true,
      if_false]
    exact List.drop_left _ _
  · simp [parse_version_from_tag, h1, h2]

/-- Witness for C6 at the tag 0.27.0: all three normalizations agree. -/
theorem c6_parse_version_from_tag_witness :
    parse_version_from_tag (cs "rust-v" ++ cs "0.27.0") = cs "0.27.0"
  ∧ parse_version_from_tag (cs "v" ++ cs "0.27.0") = cs "0.27.0"
  ∧ parse_version_from_tag (cs "0.27.0") = cs "0.27.0" :=
  ⟨(c6_parse_version_from_tag (cs "x") (cs "0.27.0") (by decide) (by decide)).2.2.2.1,
    (c6_parse_version_from_tag (cs "x") (cs "0.27.0") (by decide) (by decide)).2.2.2.2.1,
    (c6_parse_version_from_tag (cs "x") (cs "0.27.0") (by decide) (by decide)).2.2.2.2.2⟩

theorem findByExts_eq_none_iff (assets : List GitHubAsset) (t : List Char)
    (exts : List (List Char)) :
    findByExts assets t exts = none ↔
      ∀ ext ∈ exts, assets.find? (assetMatches t ext) = none := by
  induction exts with
  | nil => simp [findByExts]
  | cons e es ih =>
    simp only [findByExts]
    cases h : assets.find? (assetMatches t e) with
    | some a =>
      constructor
      · intro hh
        cases hh
      · intro hall
        have h2 := hall e (List.mem_cons_self e es)
        rw [h] at h2
        cases h2
    | none =>
      rw [ih]
      constructor
      · intro hall ext hext
        rcases List.mem_cons.mp hext with rfl | hm
        · exact h
        · exact hall ext hm
      · intro hall ext hm
        exact hall ext (List.mem_cons_of_mem e hm)

theorem findByExts_eq_some_iff (assets : List GitHubAsset) (t : List Char)
    (exts : List (List Char)) (a : GitHubAsset) :
    findByExts assets t exts = some a ↔
      ∃ l1 ext l2, exts = l1 ++ ext :: l2
        ∧ (∀ e ∈ l1, assets.find? (assetMatches t e) = none)
        ∧ assets.find? (assetMatches t ext) = some a := by
  induction exts with
  | nil =>
    constructor
    · intro h
      simp [findByExts] at h
    · rintro ⟨l1, ext, l2, h, -, -⟩
      exact absurd h (by cases l1 <;> simp)
  | cons e es ih =>
    simp only [findByExts]
    cases h : assets.find? (assetMatches t e) with
    | some b =>
      constructor
      · intro hh
        injection hh with hba
        subst hba
        exact ⟨[], e, es, rfl, by simp, h⟩
      · rintro ⟨l1, ext, l2, hsplit, hnone, hfind⟩
        cases l1 with
        | nil =>
          simp only [List.nil_append, List.cons.injEq] at hsplit
          rw [← hsplit.1] at hfind
          rw [h] at hfind
          injection hfind with hba
          rw [hba]
        | cons f fs =>
          simp only [List.cons_append, List.cons.injEq] at hsplit
          have hf := hnone f (List.mem_cons_self f fs)
          rw [← hsplit.1] at hf
          rw [h] at hf
          cases hf
    | none =>
      rw [ih]
      constructor
      · rintro ⟨l1, ext, l2, hsplit, hnone, hfind⟩
        refine ⟨e :: l1, ext, l2, by rw [hsplit]; rfl, ?_, hfind⟩
        intro f hf
        rcases List.mem_cons.mp hf with rfl | hf2
        · exact h
        · exact hnone f hf2
      · rintro ⟨l1, ext, l2, hsplit, hnone, hfind⟩
        cases l1 with
        | nil =>
          simp only [List.nil_append, List.cons.injEq] at hsplit
          rw [← hsplit.1] at hfind
          rw [h] at hfind
          cases hfind
        | cons f fs =>
          simp only [List.cons_append, List.cons.injEq] at hsplit
          exact ⟨fs, ext, l2, hsplit.2,
            fun g hg => hnone g (List.mem_cons_of_mem f hg), hfind⟩

theorem getLast?_of_isSuffixOf {suf l : List Char} (h : suf.isSuffixOf l = true)
    (c : Char) (rest : List Char) (hs : suf = rest ++ [c]) :
    l.getLast? = some c := by
  rw [List.isSuffixOf_iff_suffix] at h
  obtain ⟨t, ht⟩ := h
  rw [← ht, hs, List.getLast?_append, List.getLast?_append]
  simp

/-- C3: find_suitable_asset classifies the target by the windows substring,
tries the suffix lists in priority order, within a suffix returns the first
asset in list order whose name contains the target token and ends with the
suffix, returns none exactly when nothing matches, and on the linux-musl
example picks the zst asset over the tarball. -/
theorem c3_find_suitable_asset :
    (∀ t, containsSub (cs "windows") t = true →
        preferred_extensions t = [cs ".exe.zst", cs ".exe.zip", cs ".exe.tar.gz"])
  ∧ (∀ t, containsSub (cs "windows") t = false →
        preferred_extensions t = [cs ".zst", cs ".tar.gz"])
  ∧ (∀ t ext : List Char, ∀ a : GitHubAsset,
        assetMatches t ext a = true ↔ t <:+: a.name ∧ ext <:+ a.name)
  ∧ (∀ assets : List GitHubAsset, ∀ t : List Char,
        find_suitable_asset assets t = none ↔
          ∀ ext ∈ preferred_extensions t, ∀ a ∈ assets,
            assetMatches t ext a = false)
  ∧ (∀ assets : List GitHubAsset, ∀ t : List Char, ∀ a : GitHubAsset,
        find_suitable_asset assets t = some a →
          ∃ l1 ext l2, preferred_extensions t = l1 ++ ext :: l2
            ∧ (∀ e ∈ l1, assets.find? (assetMatches t e) = none)
            ∧ assets.find? (assetMatches t ext) = some a)
  ∧ find_suitable_asset [tarAssetEx, zstAssetEx] (cs "x86_64-unknown-linux-musl")
      = some zstAssetEx := by
  refine ⟨?_, ?_, ?_, ?_, ?_, by decide⟩
  · intro t h
    simp [preferred_extensions, h]
  · intro t h
    simp [preferred_extensions, h]
  · intro t ext a
    simp only [assetMatches, containsSub, Bool.and_eq_true, decide_eq_true_eq,
      List.isSuffixOf_iff_suffix]
  · intro assets t
    rw [find_suitable_asset, findByExts_eq_none_iff]
    constructor
    · intro h ext hext a ha
      have h2 := h ext hext
      rw [List.find?_eq_none] at h2
      simpa using h2 a ha
    · intro h ext hext
      rw [List.find?_eq_none]
      intro a ha
      simp [h ext hext a ha]
  · intro assets t a h
    exact (findByExts_eq_some_iff assets t (preferred_extensions t) a).mp h

/-- Witness for C3: the concrete linux-musl selection, with the zst suffix
tried first and matched by the second asset. -/
theorem c3_find_suitable_asset_witness :
    ∃ l1 ext l2,
      preferred_extensions (cs "x86_64-unknown-linux-musl") = l1 ++ ext :: l2
      ∧ (∀ e ∈ l1,
          ([tarAssetEx, zstAssetEx].find?
            (assetMatches (cs "x86_64-unknown-linux-musl") e)) = none)
      ∧ [tarAssetEx, zstAssetEx].find?
          (assetMatches (cs "x86_64-unknown-linux-musl") ext) = some zstAssetEx :=
  c3_find_suitable_asset.2.2.2.2.1 [tarAssetEx, zstAssetEx]
    (cs "x86_64-unknown-linux-musl") zstAssetEx (by decide)

/-- C10 counterexample: on a non-Windows target the selector can return an
asset in the exe.zst style, because such a name also ends in zst; the
claimed exclusion of every exe-prefixed format does not hold. -/
theorem c10_counterexample :
    containsSub (cs "windows") (cs "mytarget") = false
  ∧ find_suitable_asset [exeZstAssetEx] (cs "mytarget") = some exeZstAssetEx
  ∧ (cs ".exe.zst").isSuffixOf exeZstAssetEx.name = true := by decide

/-- C10 amended: a target is classified Windows-like exactly when it
contains the windows substring; on a non-Windows target any returned asset
ends in zst or tar.gz, and never ends in zip (so no zip or exe.zip asset is
returned; exe.zst and exe.tar.gz names remain possible since they also end
in the accepted suffixes). -/
theorem c10_nonwindows_suffixes (assets : List GitHubAsset) (t : List Char)
    (a : GitHubAsset) (hw : containsSub (cs "windows") t = false)
    (h : find_suitable_asset assets t = some a) :
    preferred_extensions t = [cs ".zst", cs ".tar.gz"]
  ∧ ((cs ".zst").isSuffixOf a.name = true ∨ (cs ".tar.gz").isSuffixOf a.name = true)
  ∧ (cs ".zip").isSuffixOf a.name = false := by
  have hexts : preferred_extensions t = [cs ".zst", cs ".tar.gz"] := by
    simp [preferred_extensions, hw]
  have hsuf : (cs ".zst").isSuffixOf a.name = true
      ∨ (cs ".tar.gz").isSuffixOf a.name = true := by
    rw [find_suitable_asset, hexts] at h
    simp only [findByExts] at h
    cases h1 : assets.find? (assetMatches t (cs ".zst")) with
    | some b =>
      rw [h1] at h
      injection h with hba
      subst hba
      left
      have hm := List.find?_some h1
      simp only [assetMatches, Bool.and_eq_true] at hm
      exact hm.2
    | none =>
      rw [h1] at h
      cases h2 : assets.find? (assetMatches t (cs ".tar.gz")) with
      | some b =>
        rw [h2] at h
        injection h with hba
        subst hba
        right
        have hm := List.find?_some h2
        simp only [assetMatches, Bool.and_eq_true] at hm
        exact hm.2
      | none =>
        rw [h2] at h
        simp [findByExts] at h
  refine ⟨hexts, hsuf, ?_⟩
  cases hz : (cs ".zip").isSuffixOf a.name with
  | false => rfl
  | true =>
    have hlastz := getLast?_of_isSuffixOf hz 'p' (cs ".zi") (by decide)
    rcases hsuf with h1 | h1
    · have hlast := getLast?_of_isSuffixOf h1 't' (cs ".zs") (by decide)
      rw [hlast] at hlastz
      simp at hlastz
    · have hlast := getLast?_of_isSuffixOf h1 'z' (cs ".tar.g") (by decide)
      rw [hlast] at hlastz
      simp at hlastz

/-- Witness for C10 amended at the concrete linux-musl selection. -/
theorem c10_nonwindows_suffixes_witness :
    preferred_extensions (cs "x86_64-unknown-linux-musl") = [cs ".zst", cs ".tar.gz"]
  ∧ ((cs ".zst").isSuffixOf zstAssetEx.name = true
      ∨ (cs ".tar.gz").isSuffixOf zstAssetEx.name = true)
  ∧ (cs ".zip").isSuffixOf zstAssetEx.name = false :=
  c10_nonwindows_suffixes [tarAssetEx, zstAssetEx]
    (cs "x86_64-unknown-linux-musl") zstAssetEx (by decide) (by decide)

/-- C4: extraction dispatches purely on the asset-name suffix (zst
decompresses directly, tar.gz and zip scan their entries in order for the
base name of the executable, anything else is unsupported), and the entry scans
fail with the not-found error exactly when no entry matches. -/
theorem c4_extraction_dispatch :
    (∀ dec : Decoders, ∀ nm : List Char, ∀ bytes : List Nat,
        (cs ".zst").isSuffixOf nm = true →
        extract_binary dec nm bytes =
          match dec.zstdDecode bytes with
          | Except.ok d => Except.ok d
          | Except.error e => Except.error (UpdateError.ioError e))
  ∧ (∀ dec : Decoders, ∀ nm : List Char, ∀ bytes : List Nat,
        (cs ".zst").isSuffixOf nm = false → (cs ".tar.gz").isSuffixOf nm = true →
        extract_binary dec nm bytes =
          match dec.gunzipTar bytes with
          | Except.ok es => extract_tar_gz es
          | Except.error e => Except.error (UpdateError.ioError e))
  ∧ (∀ dec : Decoders, ∀ nm : List Char, ∀ bytes : List Nat,
        (cs ".zst").isSuffixOf nm = false → (cs ".tar.gz").isSuffixOf nm = false →
        (cs ".zip").isSuffixOf nm = true →
        extract_binary dec nm bytes =
          match dec.unzip bytes with
          | Except.ok es => extract_zip es
          | Except.error e => Except.error (UpdateError.ioError e))
  ∧ (∀ dec : Decoders, ∀ nm : List Char, ∀ bytes : List Nat,
        (cs ".zst").isSuffixOf nm = false → (cs ".tar.gz").isSuffixOf nm = false →
        (cs ".zip").isSuffixOf nm = false →
        extract_binary dec nm bytes = Except.error UpdateError.unsupportedAssetFormat)
  ∧ (∀ entries : List TarEntry, ∀ e : TarEntry,
        entries.find? tarEntryMatches = some e →
        extract_tar_gz entries = Except.ok e.contents)
  ∧ (∀ entries : List TarEntry,
        (∀ e ∈ entries, tarEntryMatches e = false) →
        extract_tar_gz entries = Except.error UpdateError.binaryNotFoundInArchive)
  ∧ (∀ e : TarEntry, tarEntryMatches e = true ↔
        ∃ fn, file_name e.path = some fn
          ∧ (fn = cs "codex" ∨ (cs "codex-") <+: fn))
  ∧ (∀ entries : List ZipEntry, ∀ e : ZipEntry,
        entries.find? zipEntryMatches = some e →
        extract_zip entries = Except.ok e.contents)
  ∧ (∀ entries : List ZipEntry,
        (∀ e ∈ entries, zipEntryMatches e = false) →
        extract_zip entries = Except.error UpdateError.binaryNotFoundInArchive)
  ∧ (∀ e : ZipEntry, zipEntryMatches e = true ↔
        ∃ fn, zipFileName e.name = some fn
          ∧ (fn = cs "codex.exe" ∨ (cs "codex-") <+: fn)) := by
  refine ⟨?_, ?_, ?_, ?_, ?_, ?_, ?_, ?_, ?_, ?_⟩
  · intro dec nm bytes h1
    simp [extract_binary, h1]
  · intro dec nm bytes h1 h2
    simp [extract_binary, h1, h2]
  · intro dec nm bytes h1 h2 h3
    simp [extract_binary, h1, h2, h3]
  · intro dec nm bytes h1 h2 h3
    simp [extract_binary, h1, h2, h3]
  · intro entries e h
    simp [extract_tar_gz, h]
  · intro entries hall
    have hn : entries.find? tarEntryMatches = none := by
      rw [List.find?_eq_none]
      intro e he
      simp [hall e he]
    simp [extract_tar_gz, hn]
  · intro e
    cases hf : file_name e.path with
    | none => simp [tarEntryMatches, hf]
    | some fn => simp [tarEntryMatches, hf, List.isPrefixOf_iff_prefix]
  · intro entries e h
    simp [extract_zip, h]
  · intro entries hall
    have hn : entries.find? zipEntryMatches = none := by
      rw [List.find?_eq_none]
      intro e he
      simp [hall e he]
    simp [extract_zip, hn]
  · intro e
    cases hf : zipFileName e.name with
    | none => simp [zipEntryMatches, hf]
    | some fn => simp [zipEntryMatches, hf, List.isPrefixOf_iff_prefix]

/-- Witness for C4: a txt asset name hits the unsupported-format error. -/
theorem c4_extraction_dispatch_witness :
    extract_binary decodersEx (cs "codex.txt") [1, 2] =
      Except.error UpdateError.unsupportedAssetFormat :=
  c4_extraction_dispatch.2.2.2.1 decodersEx (cs "codex.txt") [1, 2]
    (by decide) (by decide) (by decide)


theorem list_releases_resolve_error (fetch : FetchFn) (ov : Option (List Char))
    (e : UpdateError) (hr : resolve_repo ov = Except.error e) :
    list_releases fetch ov = Except.error e := by
  unfold list_releases
  rw [hr]

theorem list_releases_resolved (fetch : FetchFn) (ov : Option (List Char))
    (o n : List Char) (hr : resolve_repo ov = Except.ok (o, n)) :
    list_releases fetch ov =
      match (if o = PRIMARY_REPO_OWNER ∧ n = PRIMARY_REPO_NAME then
              Except.ok (primary_releases fetch)
            else
              match fetch o n with
              | Except.error e => Except.error (UpdateError.fetchError e)
              | Except.ok rs =>
                Except.ok (primary_releases fetch ++ rs.map (toRelease o n))) with
      | Except.error e => Except.error e
      | Except.ok all_releases =>
        if all_releases.isEmpty then Except.error UpdateError.noReleasesFound
        else Except.ok (sortByCmp compareReleases all_releases) := by
  unfold list_releases
  rw [hr]

/-- C5: a primary-source fetch failure is non-fatal and contributes exactly
nothing, a secondary-source fetch failure (when the secondary differs from
the primary) is fatal, and a secondary equal to the primary is skipped so
the primary releases are not duplicated. -/
theorem c5_source_failure_policy :
    (∀ fetch : FetchFn, ∀ ov : Option (List Char), ∀ e : List Char,
        fetch PRIMARY_REPO_OWNER PRIMARY_REPO_NAME = Except.error e →
        list_releases fetch ov =
          list_releases
            (overrideFetch fetch PRIMARY_REPO_OWNER PRIMARY_REPO_NAME (Except.ok [])) ov)
  ∧ (∀ fetch : FetchFn, ∀ ov : Option (List Char), ∀ o n e : List Char,
        resolve_repo ov = Except.ok (o, n) →
        ¬(o = PRIMARY_REPO_OWNER ∧ n = PRIMARY_REPO_NAME) →
        fetch o n = Except.error e →
        list_releases fetch ov = Except.error (UpdateError.fetchError e))
  ∧ (∀ fetch : FetchFn, ∀ ov : Option (List Char),
        resolve_repo ov = Except.ok (PRIMARY_REPO_OWNER, PRIMARY_REPO_NAME) →
        list_releases fetch ov =
          if (primary_releases fetch).isEmpty then
            Except.error UpdateError.noReleasesFound
          else Except.ok (sortByCmp compareReleases (primary_releases fetch))) := by
  refine ⟨?_, ?_, ?_⟩
  · intro fetch ov e he
    have hprim : primary_releases fetch = [] := by
      simp [primary_releases, he]
    have hprim2 : primary_releases
        (overrideFetch fetch PRIMARY_REPO_OWNER PRIMARY_REPO_NAME (Except.ok [])) = [] := by
      simp [primary_releases, overrideFetch]
    cases hr : resolve_repo ov with
    | error er =>
      rw [list_releases_resolve_error fetch ov er hr,
        list_releases_resolve_error _ ov er hr]
    | ok pair =>
      obtain ⟨o, n⟩ := pair
      rw [list_releases_resolved fetch ov o n hr,
        list_releases_resolved _ ov o n hr]
      by_cases hc : o = PRIMARY_REPO_OWNER ∧ n = PRIMARY_REPO_NAME
      · rw [if_pos hc, if_pos hc, hprim, hprim2]
      · rw [if_neg hc, if_neg hc]
        have hov : overrideFetch fetch PRIMARY_REPO_OWNER PRIMARY_REPO_NAME
            (Except.ok []) o n = fetch o n := by
          simp only [overrideFetch, if_neg hc]
        rw [hov, hprim, hprim2]
  · intro fetch ov o n e hr hc hfe
    rw [list_releases_resolved fetch ov o n hr, if_neg hc, hfe]
  · intro fetch ov hr
    rw [list_releases_resolved fetch ov PRIMARY_REPO_OWNER PRIMARY_REPO_NAME hr,
      if_pos (And.intro rfl rfl)]

/-- Witness for C5: concrete runs exercising the failing primary, the fatal
secondary failure, and the skipped identical secondary. -/
theorem c5_source_failure_policy_witness :
    (list_releases fetchMixEx none =
      list_releases
        (overrideFetch fetchMixEx PRIMARY_REPO_OWNER PRIMARY_REPO_NAME (Except.ok [])) none)
  ∧ list_releases fetchFailEx (some (cs "other/repo")) =
      Except.error (UpdateError.fetchError (cs "rate limited"))
  ∧ list_releases fetchMixEx (some (cs "openai/codex")) =
      (if (primary_releases fetchMixEx).isEmpty then
        Except.error UpdateError.noReleasesFound
      else Except.ok (sortByCmp compareReleases (primary_releases fetchMixEx))) :=
  ⟨c5_source_failure_policy.1 fetchMixEx none (cs "rate limited") (by decide),
    c5_source_failure_policy.2.1 fetchFailEx (some (cs "other/repo"))
      (cs "other") (cs "repo") (cs "rate limited") (by decide) (by decide) (by decide),
    c5_source_failure_policy.2.2 fetchMixEx (some (cs "openai/codex")) (by decide)⟩

/-- C9: whenever list_releases returns successfully, the returned release
list is non-empty, since the empty merge is turned into the
no-releases-found error before sorting. -/
theorem c9_ok_nonempty (fetch : FetchFn) (ov : Option (List Char))
    (l : List Release) (h : list_releases fetch ov = Except.ok l) : l ≠ [] := by
  cases hr : resolve_repo ov with
  | error e =>
    rw [list_releases_resolve_error fetch ov e hr] at h
    cases h
  | ok pair =>
    obtain ⟨o, n⟩ := pair
    rw [list_releases_resolved fetch ov o n hr] at h
    revert h
    cases haft : (if o = PRIMARY_REPO_OWNER ∧ n = PRIMARY_REPO_NAME then
        Except.ok (primary_releases fetch)
      else
        match fetch o n with
        | Except.error e => Except.error (UpdateError.fetchError e)
        | Except.ok rs =>
          Except.ok (primary_releases fetch ++ rs.map (toRelease o n))) with
    | error e =>
      intro h
      have h2 : (Except.error e : Except UpdateError (List Release)) = Except.ok l := h
      cases h2
    | ok all =>
      intro h
      have h2 : (if all.isEmpty then Except.error UpdateError.noReleasesFound
          else Except.ok (sortByCmp compareReleases all)) = Except.ok l := h
      by_cases hemp : all.isEmpty = true
      · rw [if_pos hemp] at h2
        cases h2
      · rw [if_neg hemp] at h2
        injection h2 with hl
        intro hnil
        have hlen := sortByCmp_length compareReleases all
        rw [hl, hnil] at hlen
        have hall : all.isEmpty = true := by
          cases all with
          | nil => rfl
          | cons x xs => simp at hlen
        exact hemp hall

/-- Witness for C9: a concrete run whose primary fails and whose secondary
returns one release yields a non-empty list. -/
theorem c9_ok_nonempty_witness :
    [toRelease (cs "iainlowe") (cs "codex") gRelEx] ≠ [] :=
  c9_ok_nonempty fetchMixEx none
    [toRelease (cs "iainlowe") (cs "codex") gRelEx] (by decide)

theorem with_extension_ne_self (p : FsPath) (e : List Char)
    (h : p.ext ≠ some e) : p ≠ with_extension p e := fun hq =>
  h (congrArg FsPath.ext hq)

/-- C7: if the POSIX replacement sequence fails at any step (download,
unsupported format, archive scan, write, permission change, or even the
final rename), the file at the path of the running executable is unchanged; the
temporary sibling is the only path written before the final rename. -/
theorem c7_failure_leaves_executable (asset : GitHubAsset) (dec : Decoders)
    (env : ReplaceEnv) (current_exe : FsPath) (fs : Fs) (e : UpdateError)
    (hext : current_exe.ext ≠ some (cs "tmp"))
    (h : (download_and_replace_binary asset dec env current_exe fs).1
        = Except.error e) :
    (download_and_replace_binary asset dec env current_exe fs).2 current_exe
      = fs current_exe := by
  have hne : current_exe ≠ with_extension current_exe (cs "tmp") :=
    with_extension_ne_self current_exe (cs "tmp") hext
  cases hd : env.download with
  | error de => simp [download_and_replace_binary, hd]
  | ok bytes =>
    cases hx : extract_binary dec asset.name bytes with
    | error xe => simp [download_and_replace_binary, hd, hx]
    | ok bin =>
      cases hw : env.writeOk with
      | false => simp [download_and_replace_binary, hd, hx, hw]
      | true =>
        cases hp : env.permOk with
        | false =>
          simp [download_and_replace_binary, hd, hx, hw, hp, fsWrite, hne]
        | true =>
          cases hr : env.renameOk with
          | false =>
            simp [download_and_replace_binary, hd, hx, hw, hp, hr,
              fsSetMode, fsWrite, hne]
          | true =>
            exfalso
            simp [download_and_replace_binary, hd, hx, hw, hp, hr] at h

/-- Witness for C7: with a failing download over an empty filesystem, the
executable path still maps to nothing afterwards. -/
theorem c7_failure_leaves_executable_witness :
    (download_and_replace_binary zstAssetEx decodersEx envDlFailEx exePathEx
        fsEmptyEx).2 exePathEx = fsEmptyEx exePathEx :=
  c7_failure_leaves_executable zstAssetEx decodersEx envDlFailEx exePathEx
    fsEmptyEx (UpdateError.fetchError (cs "net down")) (by decide) (by decide)

/-- C8: a successful POSIX replacement leaves the extracted bytes at the
executable path with mode 755 (whose executable bits are set), having
written them to the temporary sibling, chmodded it, and renamed it onto the
executable path (so the temporary path is gone afterwards). -/
theorem c8_posix_replace (asset : GitHubAsset) (dec : Decoders)
    (env : ReplaceEnv) (current_exe : FsPath) (fs : Fs)
    (hext : current_exe.ext ≠ some (cs "tmp"))
    (h : (download_and_replace_binary asset dec env current_exe fs).1
        = Except.ok ()) :
    ∃ bytes bin,
      env.download = Except.ok bytes
      ∧ extract_binary dec asset.name bytes = Except.ok bin
      ∧ (download_and_replace_binary asset dec env current_exe fs).2 current_exe
          = some ⟨bin, 0o755⟩
      ∧ (download_and_replace_binary asset dec env current_exe fs).2
          (with_extension current_exe (cs "tmp")) = none
      ∧ Nat.land 0o755 0o111 = 0o111 := by
  have hne : current_exe ≠ with_extension current_exe (cs "tmp") :=
    with_extension_ne_self current_exe (cs "tmp") hext
  cases hd : env.download with
  | error de =>
    exfalso
    simp [download_and_replace_binary, hd] at h
  | ok bytes =>
    cases hx : extract_binary dec asset.name bytes with
    | error xe =>
      exfalso
      simp [download_and_replace_binary, hd, hx] at h
    | ok bin =>
      cases hw : env.writeOk with
      | false =>
        exfalso
        simp [download_and_replace_binary, hd, hx, hw] at h
      | true =>
        cases hp : env.permOk with
        | false =>
          exfalso
          simp [download_and_replace_binary, hd, hx, hw, hp] at h
        | true =>
          cases hr : env.renameOk with
          | false =>
            exfalso
            simp [download_and_replace_binary, hd, hx, hw, hp, hr] at h
          | true =>
            refine ⟨bytes, bin, rfl, hx, ?_, ?_, by decide⟩
            · simp [download_and_replace_binary, hd, hx, hw, hp, hr,
                fsRename, fsSetMode, fsWrite, hne]
            · simp [download_and_replace_binary, hd, hx, hw, hp, hr, fsRename]

/-- Witness for C8: a fully successful concrete run installs the downloaded
bytes at the executable path with mode 755. -/
theorem c8_posix_replace_witness :
    ∃ bytes bin,
      envOkEx.download = Except.ok bytes
      ∧ extract_binary decodersEx zstAssetEx.name bytes = Except.ok bin
      ∧ (download_and_replace_binary zstAssetEx decodersEx envOkEx exePathEx
          fsEmptyEx).2 exePathEx = some ⟨bin, 0o755⟩
      ∧ (download_and_replace_binary zstAssetEx decodersEx envOkEx exePathEx
          fsEmptyEx).2 (with_extension exePathEx (cs "tmp")) = none
      ∧ Nat.land 0o755 0o111 = 0o111 :=
  c8_posix_replace zstAssetEx decodersEx envOkEx exePathEx fsEmptyEx
    (by decide) (by decide)
